import Mathlib

/-!
Verification development for the `filter_calendar` custom component
(`custom_components/filter_calendar/calendar.py`).

The Python source is shallowly embedded: pure functions become Lean
functions, the stateful cache / registry / view code becomes explicit
state passing or a step relation over a state type, and fallible code
returns `Except`.  Timestamps are modelled as natural numbers (minutes),
which is faithful because the source only compares them with `<=` and
takes `max`.
-/

/-- Model of `homeassistant.components.calendar.CalendarEvent` as used by
`calendar.py`: a start timestamp, an end timestamp (field `stop` here since
`end` is a Lean keyword), a summary, and optional description/location.
Timestamps are minutes as naturals. -/
structure CalendarEvent where
  start : Nat
  stop : Nat
  summary : String
  description : Option String := none
  location : Option String := none
deriving DecidableEq

/-- Boolean test that the first character list is a leading segment of the
second; helper for the model of Python's substring operator. -/
def prefixOfL : List Char → List Char → Bool
  | [], _ => true
  | _ :: _, [] => false
  | x :: xs, y :: ys => x == y && prefixOfL xs ys

/-- Helper for `pyIn`: does the needle occur as a contiguous segment of the
haystack (checked at every suffix)? -/
def containsSubL (n : List Char) : List Char → Bool
  | [] => prefixOfL n []
  | c :: t => prefixOfL n (c :: t) || containsSubL n t

/-- Model of Python's `needle in haystack` on strings: contiguous substring
containment (the empty needle is contained in everything). -/
def pyIn (needle haystack : String) : Bool :=
  containsSubL needle.data haystack.data

/-- Model of `AttrFilter` (calendar.py lines 195-226): the configured filter
string plus the include/exclude keyword lists.  The attribute list is left at
its default `["summary", "description", "location"]`, which is the only value
the component ever constructs. -/
structure AttrFilter where
  filter_spec : String
  include_work_types : List String
  exclude_types : List String
deriving DecidableEq

/-- Model of `AttrFilter.search` (lines 208-213) on the fixed default
attribute list: the three searched fields of an event in order.  The
`AttributeError` branch is unreachable in the model because the modelled
`CalendarEvent` has all three attributes (possibly `None`). -/
def searchFields (e : CalendarEvent) : List (Option String) :=
  [some e.summary, e.description, e.location]

/-- Model of `AttrFilter.match` (lines 215-226), named `matchStr` because
`match` is a Lean keyword: include keywords force `True`, then exclude
keywords force `False`, otherwise test the filter string as a substring. -/
def AttrFilter.matchStr (f : AttrFilter) (s : String) : Bool :=
  if f.include_work_types.any (fun w => pyIn w s) then true
  else if f.exclude_types.any (fun w => pyIn w s) then false
  else pyIn f.filter_spec s

/-- Model of `Filter.__call__` (lines 188-192) specialised to `AttrFilter`:
the event matches when some searched field is non-`None` and its per-field
`match` test succeeds. -/
def filterCall (f : AttrFilter) (e : CalendarEvent) : Bool :=
  (searchFields e).any (fun o =>
    match o with
    | none => false
    | some s => f.matchStr s)

/-- The searched fields of an event that are not `None`, in order. -/
def nonNullFields (e : CalendarEvent) : List String :=
  (searchFields e).filterMap id

/-- Modelled from the spec's words for claim C3 (event-level precedence):
if ANY searched field contains an include keyword the event matches; failing
that, if ANY searched field contains an exclude keyword the event is
rejected; otherwise the event matches when some searched field contains the
filter string.  This is the claimed semantics, to be compared with the
per-field semantics the code actually implements (`filterCall`). -/
def attrEventLevel (f : AttrFilter) (e : CalendarEvent) : Bool :=
  if (nonNullFields e).any (fun s => f.include_work_types.any (fun w => pyIn w s)) then true
  else if (nonNullFields e).any (fun s => f.exclude_types.any (fun w => pyIn w s)) then false
  else (nonNullFields e).any (fun s => pyIn f.filter_spec s)

/-- Item of a compiled regular expression, covering the construct subset the
component's patterns use: literal characters, `.`, starred atoms, and the
`$` end anchor.  A leading `^` anchor is handled by `reSearch`. -/
inductive RItem where
  | lit (c : Char)
  | dot
  | litStar (c : Char)
  | dotStar
  | dollar
deriving DecidableEq

/-- Compile a pattern (already stripped of a leading `^`) into items; a `*`
directly after an atom stars that atom. -/
def parseItems : List Char → List RItem
  | [] => []
  | c :: '*' :: t =>
    (if c = '.' then RItem.dotStar else RItem.litStar c) :: parseItems t
  | '$' :: t => RItem.dollar :: parseItems t
  | '.' :: t => RItem.dot :: parseItems t
  | c :: t => RItem.lit c :: parseItems t

/-- Fuelled matcher: does the item sequence match some leading segment of
`s`?  `dollar` demands the end of the string, starred atoms backtrack.
Every recursive call strictly decreases `s.length + items.length`, so with
the fuel `matchItems` supplies the `0` cutoff is never reached; the fuel
exists only to make the definition structurally recursive, hence kernel
reducible. -/
def matchItemsF : Nat → List RItem → List Char → Bool
  | 0, _, _ => false
  | _ + 1, [], _ => true
  | f + 1, RItem.dollar :: rest, s => s.isEmpty && matchItemsF f rest s
  | _ + 1, RItem.lit _ :: _, [] => false
  | f + 1, RItem.lit c :: rest, x :: t => x == c && matchItemsF f rest t
  | _ + 1, RItem.dot :: _, [] => false
  | f + 1, RItem.dot :: rest, _ :: t => matchItemsF f rest t
  | f + 1, RItem.litStar c :: rest, s =>
    matchItemsF f rest s ||
      (match s with
       | [] => false
       | x :: t => x == c && matchItemsF f (RItem.litStar c :: rest) t)
  | f + 1, RItem.dotStar :: rest, s =>
    matchItemsF f rest s ||
      (match s with
       | [] => false
       | _ :: t => matchItemsF f (RItem.dotStar :: rest) t)

/-- Does the item sequence match some leading segment of `s`?  Together with
`suffixSearch` this models Python's `re.search` semantics on the supported
subset (no trailing-newline subtlety arises for the strings considered). -/
def matchItems (items : List RItem) (s : List Char) : Bool :=
  matchItemsF (s.length + items.length + 1) items s

/-- Try `matchItems` at every start position (every suffix), as Python's
`re.search` does for unanchored patterns. -/
def suffixSearch (items : List RItem) : List Char → Bool
  | [] => matchItems items []
  | c :: t => matchItems items (c :: t) || suffixSearch items t

/-- Model of `re.compile(pattern).search(s) is not None` for the supported
pattern subset: a leading `^` restricts matching to the start of the string,
otherwise all start positions are tried. -/
def reSearch (pattern s : String) : Bool :=
  match pattern.data with
  | '^' :: pt => matchItems (parseItems pt) s.data
  | pt => suffixSearch (parseItems pt) s.data

/-- Model of `RegexFilter` (lines 229-244): it stores the same three
configuration fields as `AttrFilter` (its `__init__` passes them to
`super().__init__`) and compiles `filter_spec` as a regular expression. -/
structure RegexFilter where
  filter_spec : String
  include_work_types : List String
  exclude_types : List String
deriving DecidableEq

/-- Model of `Filter.__call__` specialised to `RegexFilter`, whose `match`
override (lines 240-244) tests only `self.expression.search(search)`:
the event matches when the compiled pattern matches within some non-`None`
searched field.  Note the include/exclude lists are NOT consulted. -/
def regexFilterCall (f : RegexFilter) (e : CalendarEvent) : Bool :=
  (searchFields e).any (fun o =>
    match o with
    | none => false
    | some s => reSearch f.filter_spec s)

/-- Modelled from the spec's words for claim C4: the regex filter with the
same per-field include/exclude precedence as `AttrFilter.match`, the final
test being a regex search.  This is the claimed semantics, to be compared
with `regexFilterCall`, which the code actually implements. -/
def regexSpecSemantics (f : RegexFilter) (e : CalendarEvent) : Bool :=
  (searchFields e).any (fun o =>
    match o with
    | none => false
    | some s =>
      if f.include_work_types.any (fun w => pyIn w s) then true
      else if f.exclude_types.any (fun w => pyIn w s) then false
      else reSearch f.filter_spec s)

/-- Ordering of events by start time, the sort key `combine_events` uses
(`events.sort(key=lambda x: x.start)`, line 313). -/
def startLE (a b : CalendarEvent) : Prop := a.start ≤ b.start

instance : DecidableRel startLE := fun a b => Nat.decLe a.start b.start

instance : IsTotal CalendarEvent startLE := ⟨fun a b => Nat.le_total a.start b.start⟩

instance : IsTrans CalendarEvent startLE := ⟨fun _ _ _ h h' => Nat.le_trans h h'⟩

/-- Model of `events.sort(key=lambda x: x.start)` (line 313).  Python's sort
is stable, and any two stable sorts with respect to the same key agree, so
stable insertion sort computes exactly the list Python produces. -/
def sortByStart (events : List CalendarEvent) : List CalendarEvent :=
  List.insertionSort startLE events

/-- The event `CalendarEvent(start=.., end=.., summary=..)` built at lines
327-333 and 340-346: description and location take their default `None`. -/
def mkMerged (ms me : Nat) (msum : String) : CalendarEvent :=
  { start := ms, stop := me, summary := msum }

/-- The loop of `combine_events` (lines 321-346) over the tail of the sorted
list, carrying the open run `(merged_event_start, merged_event_end,
merged_event_summary)`: extend the run while the next start is `<=` the run
end, otherwise emit the run and restart; the last run is always emitted. -/
def combineRun (ms me : Nat) (msum : String) : List CalendarEvent → List CalendarEvent
  | [] => [mkMerged ms me msum]
  | e :: t =>
    if e.start ≤ me then combineRun ms (max me e.stop) msum t
    else mkMerged ms me msum :: combineRun e.start e.stop e.summary t

/-- Model of `combine_events` (lines 307-348), value view: empty input gives
`[]`, otherwise sort by start and run the merging loop initialised from the
first sorted event. -/
def combine_events (events : List CalendarEvent) : List CalendarEvent :=
  match sortByStart events with
  | [] => []
  | e :: rest => combineRun e.start e.stop e.summary rest

/-- Model of `combine_events` including its effect on the caller's list:
`events.sort(...)` (line 313) sorts the list IN PLACE, so the call leaves
the input object holding the sorted permutation.  The first component is the
input list's contents after the call, the second the returned value. -/
def combine_events_proc (events : List CalendarEvent) :
    List CalendarEvent × List CalendarEvent :=
  let sorted := sortByStart events
  (sorted,
    match sorted with
    | [] => []
    | e :: rest => combineRun e.start e.stop e.summary rest)

/-- Open run of the reference merge algorithm, as the spec words it:
`[run_start, run_end, run_summary]`. -/
structure MergeRun where
  rs : Nat
  re : Nat
  rsum : String
deriving DecidableEq

/-- Close a run into a merged event (summary from the first constituent,
description/location dropped). -/
def closeRun (r : MergeRun) : CalendarEvent := mkMerged r.rs r.re r.rsum

/-- Modelled from the spec's words for claim C2, a single walk step: with no
open run, open one from the event; otherwise extend when `event.start` is at
most the run's end (new end `max(run_end, event.end)`, summary retained),
else close the current run and open a new one. -/
def mergeStep (acc : List CalendarEvent × Option MergeRun) (e : CalendarEvent) :
    List CalendarEvent × Option MergeRun :=
  match acc.2 with
  | none => (acc.1, some ⟨e.start, e.stop, e.summary⟩)
  | some r =>
    if e.start ≤ r.re then (acc.1, some ⟨r.rs, max r.re e.stop, r.rsum⟩)
    else (acc.1 ++ [closeRun r], some ⟨e.start, e.stop, e.summary⟩)

/-- Modelled from the spec's words for claim C2: the reference run-building
algorithm as a left fold over the start-sorted events; the last open run is
always emitted at the end, and the empty input yields the empty output. -/
def mergeRef (events : List CalendarEvent) : List CalendarEvent :=
  match (sortByStart events).foldl mergeStep ([], none) with
  | (closed, none) => closed
  | (closed, some r) => closed ++ [closeRun r]

/-- Outcome of one upstream fetch: the event list, or the `NotAvailable`
failure (`CalendarUnavailable` in the source). -/
inductive FetchRes where
  | ok (evs : List CalendarEvent)
  | err
deriving DecidableEq

/-- Exception by which a run of `async_update` exits: the `AttributeError`
raised at line 284 (on the success path) or the `CalendarUnavailable`
propagating from the fetch. -/
inductive UpdateErr where
  | attributeError
  | calendarUnavailable
deriving DecidableEq

/-- Model of one run of the module-level `async_update` function (lines
276-303) applied to a `FilterCalendar` instance, given the fetch outcome
`res`.  `combine_events` (line 307) and the nested `async_get_events`
(line 350) are defs nested inside `async_update`'s own body — its 4-space
indent continues the function block — not methods of `FilterCalendar`, so on
a successful fetch line 283 computes `filtered_events` and then
`self.combine_events(filtered_events)` at line 284 raises `AttributeError`;
on fetch failure `CalendarUnavailable` propagates from line 280.  Either way
the function exits by exception before line 288, so `self._event` is never
assigned.  The result is the escaping exception together with the (always
unchanged) observable `_event` state. -/
def asyncUpdateRun (prev : Option CalendarEvent)
    (flt : CalendarEvent → Bool) (res : FetchRes) :
    UpdateErr × Option CalendarEvent :=
  match res with
  | FetchRes.err => (UpdateErr.calendarUnavailable, prev)
  | FetchRes.ok evs =>
    let _filtered := evs.filter flt
    (UpdateErr.attributeError, prev)

/-- Model of `datetime` as the cache-key code uses it: the fields consulted
by `replace(second=0, microsecond=0)` and tuple equality. -/
structure PyDateTime where
  year : Nat
  month : Nat
  day : Nat
  hour : Nat
  minute : Nat
  second : Nat
  microsecond : Nat
deriving DecidableEq

/-- Model of `d.replace(second=0, microsecond=0)` (lines 126-127). -/
def replaceZeroSeconds (d : PyDateTime) : PyDateTime :=
  { d with second := 0, microsecond := 0 }

/-- Model of `cachetools.keys.hashkey(calendar=.., start_date=.., end_date=..)`:
the key is the tuple of the keyword arguments, equal exactly when the
arguments are equal. -/
def eventsHashkey (calendar : String) (start_date end_date : PyDateTime) :
    String × PyDateTime × PyDateTime :=
  (calendar, start_date, end_date)

/-- The CacheKey computed by `async_get_events` (lines 124-128): identifier
plus both range endpoints truncated to minute resolution. -/
def getEventsKey (entity_id : String) (start_date end_date : PyDateTime) :
    String × PyDateTime × PyDateTime :=
  eventsHashkey entity_id (replaceZeroSeconds start_date)
    (replaceZeroSeconds end_date)

/-- Model of Python's `str.startswith` via character-list comparison. -/
def pyStartsWith (s pre : String) : Bool := prefixOfL pre.data s.data

/-- Model of the tracking-identifier normalisation in
`FilterCalendar.__init__` (lines 257-258): prepend `"calendar."` exactly
when the identifier does not start with `"calendar"`. -/
def normalizeTrackingId (tracking_calendar_id : String) : String :=
  if pyStartsWith tracking_calendar_id "calendar" then tracking_calendar_id
  else "calendar." ++ tracking_calendar_id

/-- Model of the state `FilterCalendar.__init__` (lines 250-261) stores. -/
structure FilterCalendarState where
  name : String
  tracking_calendar_id : String
  event : Option CalendarEvent
deriving DecidableEq

/-- Model of `FilterCalendar.__init__`: stores the name, the normalised
tracking identifier, and no current event. -/
def filterCalendarInit (name tracking_calendar_id : String) :
    FilterCalendarState :=
  { name := name,
    tracking_calendar_id := normalizeTrackingId tracking_calendar_id,
    event := none }

/-- Model of `CalendarStore.async_get_calendar` (lines 149-168).  The store's
`_calendars` dict is an association list; the host registry plus platform
lookup (lines 155-166) is collapsed into an external map from identifier to
an optional `(handle, available)` pair, which is faithful because the source
treats "no registry entry", "no platform entity" and "entity not available"
identically (fall through to `CalendarUnavailable`).  The result triple is
(outcome, updated `_calendars`, whether the registry was consulted);
`Except.error ()` models raising `CalendarUnavailable`. -/
def async_get_calendar (cals : List (String × Nat))
    (registry : String → Option (Nat × Bool)) (entity_id : String) :
    Except Unit Nat × List (String × Nat) × Bool :=
  match cals.lookup entity_id with
  | some c => (Except.ok c, cals, false)
  | none =>
    match registry entity_id with
    | some (h, true) => (Except.ok h, (entity_id, h) :: cals, true)
    | some (_, false) => (Except.error (), cals, true)
    | none => (Except.error (), cals, true)

/-- Resolved state of the single cache entry for one CacheKey, as
`async_get_events` leaves it after a completed call: a future resolved with
an event list (lines 137-143), a future resolved with the
`CalendarUnavailable` exception (lines 145-147), or the plain event list a
later hit wrote back (line 134). -/
inductive CacheEnt where
  | futOk (evs : List CalendarEvent)
  | futErr
  | listVal (evs : List CalendarEvent)
deriving DecidableEq

/-- The cache TTL, `MIN_TIME_BETWEEN_UPDATES` (line 47), in minutes. -/
def MIN_TIME_BETWEEN_UPDATES : Nat := 15

/-- The `TTLCache` restricted to one CacheKey: the entry together with its
insertion time, or nothing.  `cachetools.TTLCache` treats an entry as
present exactly while `now < insertion + ttl`. -/
structure EventsStore where
  entry : Option (CacheEnt × Nat)
deriving DecidableEq

/-- The cache-miss path of `async_get_events` (lines 137-147): install a
future, fetch, and resolve the future with the outcome (the result value,
the store afterwards, and `true` for "an upstream fetch occurred"). -/
def installFetch (t : Nat) (fetch : FetchRes) : FetchRes × EventsStore × Bool :=
  match fetch with
  | FetchRes.ok evs => (FetchRes.ok evs, ⟨some (CacheEnt.futOk evs, t)⟩, true)
  | FetchRes.err => (FetchRes.err, ⟨some (CacheEnt.futErr, t)⟩, true)

/-- Sequential, single-key model of `CalendarStore.async_get_events`
(lines 112-147) for a call at time `t` whose upstream fetch (if one happens)
returns `fetch`.  A live entry is returned without fetching; awaiting a
future resolved with the exception re-raises it and leaves the entry alone
(line 134 is unreachable on that path), while a future resolved with a list
is written back as a plain list, refreshing the entry's insertion time; an
expired or absent entry triggers `installFetch`. -/
def getEventsTimed (st : EventsStore) (t : Nat) (fetch : FetchRes) :
    FetchRes × EventsStore × Bool :=
  match st.entry with
  | some (ent, t0) =>
    if t < t0 + MIN_TIME_BETWEEN_UPDATES then
      match ent with
      | CacheEnt.futOk evs =>
        (FetchRes.ok evs, ⟨some (CacheEnt.listVal evs, t)⟩, false)
      | CacheEnt.futErr => (FetchRes.err, st, false)
      | CacheEnt.listVal evs => (FetchRes.ok evs, st, false)
    else installFetch t fetch
  | none => installFetch t fetch

/-- Run a sequence of calls, each given by its time and the outcome its
upstream fetch would have; returns the observed (result, fetch-occurred)
pairs and the final store. -/
def runCalls (st : EventsStore) : List (Nat × FetchRes) →
    List (FetchRes × Bool) × EventsStore
  | [] => ([], st)
  | (t, f) :: cs =>
    match getEventsTimed st t f with
    | (r, st', fetched) =>
      match runCalls st' cs with
      | (outs, stFin) => ((r, fetched) :: outs, stFin)

/-- Per-task control state of one `async_get_events` call in the
single-flight model: before the locked cache check, performing the upstream
fetch, suspended on another task's future (holding the store lock, as the
source awaits at line 133 inside `async with self._lock`), or finished with
a result. -/
inductive TaskSt where
  | start
  | fetching
  | waiting
  | done (r : FetchRes)
deriving DecidableEq

/-- State of the cache slot for the one CacheKey all tasks share: no entry,
an unresolved pending future, a future resolved with an outcome, or the
plain list written back by a waiter (line 134). -/
inductive CacheSt where
  | empty
  | futPending
  | futResolved (r : FetchRes)
  | value (evs : List CalendarEvent)
deriving DecidableEq

/-- Global state of the single-flight model: the store lock, the cache slot,
how many upstream fetches have started, and the tasks. -/
structure SFState where
  lock : Bool
  cache : CacheSt
  fetchCount : Nat
  tasks : List TaskSt
deriving DecidableEq

/-- Interleaving semantics of concurrent `async_get_events` calls sharing
one CacheKey (lines 112-147), under asyncio's run-to-completion rule: a task
yields control only at a true suspension point.  The code's only suspension
points are acquiring the lock, awaiting a pending future (line 133), and the
upstream fetch itself (line 142) — `async with` exit, `asyncio.Future()`,
the cache writes and `async_get_calendar` (which contains no await) all run
without yielding, so each arc below is one atomic segment.  In particular
the check-miss then install-future sequence (lines 130-138) is atomic even
though the install is written after the lock is released.  Awaiting an
already-resolved future returns (or raises) without suspending, giving the
three direct hit arcs.  A fetch resolves with a nondeterministic outcome
`r`; the model keeps logical time still (all calls land inside one TTL
window) and exercises a single key, so TTL expiry and capacity eviction do
not occur. -/
inductive SFStep : SFState → SFState → Prop where
  | beginFetch (s : SFState) (i : Nat) :
      s.lock = false → s.cache = CacheSt.empty →
      s.tasks[i]? = some TaskSt.start →
      SFStep s ⟨false, CacheSt.futPending, s.fetchCount + 1,
        s.tasks.set i TaskSt.fetching⟩
  | enterWait (s : SFState) (i : Nat) :
      s.lock = false → s.cache = CacheSt.futPending →
      s.tasks[i]? = some TaskSt.start →
      SFStep s ⟨true, CacheSt.futPending, s.fetchCount,
        s.tasks.set i TaskSt.waiting⟩
  | hitResolvedOk (s : SFState) (i : Nat) (evs : List CalendarEvent) :
      s.lock = false → s.cache = CacheSt.futResolved (FetchRes.ok evs) →
      s.tasks[i]? = some TaskSt.start →
      SFStep s ⟨false, CacheSt.value evs, s.fetchCount,
        s.tasks.set i (TaskSt.done (FetchRes.ok evs))⟩
  | hitResolvedErr (s : SFState) (i : Nat) :
      s.lock = false → s.cache = CacheSt.futResolved FetchRes.err →
      s.tasks[i]? = some TaskSt.start →
      SFStep s ⟨false, CacheSt.futResolved FetchRes.err, s.fetchCount,
        s.tasks.set i (TaskSt.done FetchRes.err)⟩
  | hitValue (s : SFState) (i : Nat) (evs : List CalendarEvent) :
      s.lock = false → s.cache = CacheSt.value evs →
      s.tasks[i]? = some TaskSt.start →
      SFStep s ⟨false, CacheSt.value evs, s.fetchCount,
        s.tasks.set i (TaskSt.done (FetchRes.ok evs))⟩
  | completeFetch (s : SFState) (i : Nat) (r : FetchRes) :
      s.tasks[i]? = some TaskSt.fetching → s.cache = CacheSt.futPending →
      SFStep s ⟨s.lock, CacheSt.futResolved r, s.fetchCount,
        s.tasks.set i (TaskSt.done r)⟩
  | wakeOk (s : SFState) (i : Nat) (evs : List CalendarEvent) :
      s.lock = true → s.tasks[i]? = some TaskSt.waiting →
      s.cache = CacheSt.futResolved (FetchRes.ok evs) →
      SFStep s ⟨false, CacheSt.value evs, s.fetchCount,
        s.tasks.set i (TaskSt.done (FetchRes.ok evs))⟩
  | wakeErr (s : SFState) (i : Nat) :
      s.lock = true → s.tasks[i]? = some TaskSt.waiting →
      s.cache = CacheSt.futResolved FetchRes.err →
      SFStep s ⟨false, CacheSt.futResolved FetchRes.err, s.fetchCount,
        s.tasks.set i (TaskSt.done FetchRes.err)⟩

/-- Initial state of the claim's scenario: no cached entry for the key, the
lock free, no fetch started, and `n` concurrent callers about to run. -/
def sfInit (n : Nat) : SFState :=
  ⟨false, CacheSt.empty, 0, List.replicate n TaskSt.start⟩

/-- Every present position of the task list satisfies `P`. -/
def allAt (ts : List TaskSt) (P : TaskSt → Prop) : Prop :=
  ∀ (i : Nat) (t : TaskSt), ts[i]? = some t → P t

/-- At most one position of the task list holds the state `x`. -/
def uniqAt (ts : List TaskSt) (x : TaskSt) : Prop :=
  ∀ i j : Nat, ts[i]? = some x → ts[j]? = some x → i = j

/-- No position of the task list holds the state `x`. -/
def absentT (ts : List TaskSt) (x : TaskSt) : Prop :=
  ∀ i : Nat, ts[i]? ≠ some x

/-- Inductive invariant of the single-flight model, by cache-slot state:
with no entry nothing has started; while a future is pending exactly one
task is fetching, at most one is waiting (holding the lock), and exactly one
fetch has started; once the future is resolved with `r`, every finished task
finished with `r`; once the plain value is cached, every finished task got
that value; the fetch counter never passes 1. -/
def SFInv (s : SFState) : Prop :=
  (s.cache = CacheSt.empty →
    s.fetchCount = 0 ∧ s.lock = false ∧
    allAt s.tasks (fun t => t = TaskSt.start)) ∧
  (s.cache = CacheSt.futPending →
    s.fetchCount = 1 ∧
    allAt s.tasks
      (fun t => t = TaskSt.start ∨ t = TaskSt.fetching ∨ t = TaskSt.waiting) ∧
    uniqAt s.tasks TaskSt.fetching ∧
    uniqAt s.tasks TaskSt.waiting ∧
    (s.lock = false → absentT s.tasks TaskSt.waiting)) ∧
  (∀ r : FetchRes, s.cache = CacheSt.futResolved r →
    s.fetchCount = 1 ∧
    allAt s.tasks
      (fun t => t = TaskSt.start ∨ t = TaskSt.waiting ∨ t = TaskSt.done r) ∧
    uniqAt s.tasks TaskSt.waiting ∧
    (s.lock = false → absentT s.tasks TaskSt.waiting)) ∧
  (∀ evs : List CalendarEvent, s.cache = CacheSt.value evs →
    s.fetchCount = 1 ∧ s.lock = false ∧
    allAt s.tasks
      (fun t => t = TaskSt.start ∨ t = TaskSt.done (FetchRes.ok evs)))

/-- Final state of a concrete single-flight run (one caller, fetch returns
the empty event list) used to exercise the single-flight theorem. -/
def sfW2 : SFState :=
  ⟨false, CacheSt.futResolved (FetchRes.ok []), 1, [TaskSt.done (FetchRes.ok [])]⟩

/-- Folding the reference step with an open run computes exactly the source
loop `combineRun`, with the already-closed runs prepended. -/
theorem foldl_mergeStep_combineRun (l : List CalendarEvent) :
    ∀ (closed : List CalendarEvent) (r : MergeRun),
      (match l.foldl mergeStep (closed, some r) with
       | (c, none) => c
       | (c, some r') => c ++ [closeRun r']) =
        closed ++ combineRun r.rs r.re r.rsum l := by
  induction l with
  | nil => intro closed r; simp [combineRun, closeRun]
  | cons e t ih =>
    intro closed r
    rw [List.foldl_cons]
    by_cases h : e.start ≤ r.re
    · have hm : mergeStep (closed, some r) e =
          (closed, some ⟨r.rs, max r.re e.stop, r.rsum⟩) := by
        simp [mergeStep, h]
      rw [hm, ih closed ⟨r.rs, max r.re e.stop, r.rsum⟩]
      simp [combineRun, h]
    · have hm : mergeStep (closed, some r) e =
          (closed ++ [closeRun r], some ⟨e.start, e.stop, e.summary⟩) := by
        simp [mergeStep, h]
      rw [hm, ih (closed ++ [closeRun r]) ⟨e.start, e.stop, e.summary⟩]
      simp [combineRun, h, closeRun, List.append_assoc]

/-- The source implementation agrees with the reference algorithm. -/
theorem combine_events_eq_mergeRef (events : List CalendarEvent) :
    combine_events events = mergeRef events := by
  unfold combine_events mergeRef
  cases h : sortByStart events with
  | nil => rfl
  | cons e rest =>
    simp only [List.foldl_cons, mergeStep]
    rw [foldl_mergeStep_combineRun rest [] ⟨e.start, e.stop, e.summary⟩]
    simp

/-- Every event emitted by the merging loop starts either at the open run's
start or at the start of one of the remaining input events. -/
theorem combineRun_start_mem (l : List CalendarEvent) :
    ∀ (ms me : Nat) (msum : String) (m : CalendarEvent),
      m ∈ combineRun ms me msum l →
        m.start = ms ∨ ∃ x ∈ l, m.start = x.start := by
  induction l with
  | nil =>
    intro ms me msum m hm
    simp [combineRun, mkMerged] at hm
    subst hm
    exact Or.inl rfl
  | cons e t ih =>
    intro ms me msum m hm
    by_cases h : e.start ≤ me
    · rw [combineRun, if_pos h] at hm
      rcases ih ms (max me e.stop) msum m hm with h1 | ⟨x, hx, hx'⟩
      · exact Or.inl h1
      · exact Or.inr ⟨x, List.mem_cons_of_mem e hx, hx'⟩
    · rw [combineRun, if_neg h] at hm
      rcases List.mem_cons.mp hm with h1 | h1
      · subst h1; exact Or.inl rfl
      · rcases ih e.start e.stop e.summary m h1 with h2 | ⟨x, hx, hx'⟩
        · exact Or.inr ⟨e, List.mem_cons_self e t, h2⟩
        · exact Or.inr ⟨x, List.mem_cons_of_mem e hx, hx'⟩

/-- The merging loop's first emitted event starts at the open run's start. -/
theorem combineRun_head_start (l : List CalendarEvent) :
    ∀ (ms me : Nat) (msum : String),
      ∃ e' l', combineRun ms me msum l = e' :: l' ∧ e'.start = ms := by
  induction l with
  | nil => intro ms me msum; exact ⟨mkMerged ms me msum, [], rfl, rfl⟩
  | cons e t ih =>
    intro ms me msum
    by_cases h : e.start ≤ me
    · rcases ih ms (max me e.stop) msum with ⟨e', l', hl, hs⟩
      exact ⟨e', l', by rw [combineRun, if_pos h, hl], hs⟩
    · exact ⟨mkMerged ms me msum, combineRun e.start e.stop e.summary t,
        by rw [combineRun, if_neg h], rfl⟩

/-- When `combine_events` returns a non-empty list, its first element has the
least start time among the returned merged events. -/
theorem combine_events_head_min (L : List CalendarEvent) (e : CalendarEvent)
    (rest : List CalendarEvent) (h : combine_events L = e :: rest) :
    ∀ m ∈ e :: rest, e.start ≤ m.start := by
  unfold combine_events at h
  cases hs : sortByStart L with
  | nil =>
    rw [hs] at h
    exact List.noConfusion h
  | cons e0 r0 =>
    rw [hs] at h
    have h2 : combineRun e0.start e0.stop e0.summary r0 = e :: rest := h
    have hsorted : List.Sorted startLE (sortByStart L) :=
      List.sorted_insertionSort startLE L
    rw [hs, List.sorted_cons] at hsorted
    rcases combineRun_head_start r0 e0.start e0.stop e0.summary with
      ⟨e', l', hl, hstart⟩
    rw [hl] at h2
    have he : e = e' := ((List.cons.injEq _ _ _ _).mp h2.symm).1
    have hes : e.start = e0.start := by rw [he, hstart]
    intro m hm
    have hm' : m ∈ combineRun e0.start e0.stop e0.summary r0 := by
      rw [hl]; rw [← h2] at hm; exact hm
    rcases combineRun_start_mem r0 e0.start e0.stop e0.summary m hm' with
      h1 | ⟨x, hx, hx'⟩
    · rw [hes, h1]
    · rw [hes, hx']; exact hsorted.1 x hx

/-- Reading any position of a point-update: either it is the updated
position holding the new value, or the underlying list already held it. -/
theorem getElem?_set_cases {α : Type _} {ts : List α} {i j : Nat} {y t : α}
    (h : (ts.set i y)[j]? = some t) :
    (i = j ∧ t = y) ∨ (i ≠ j ∧ ts[j]? = some t) := by
  by_cases hij : i = j
  · subst hij
    rw [List.getElem?_set, if_pos rfl] at h
    by_cases hlt : i < ts.length
    · rw [if_pos hlt] at h
      exact Or.inl ⟨rfl, (Option.some.inj h).symm⟩
    · rw [if_neg hlt] at h
      exact Option.noConfusion h
  · rw [List.getElem?_set, if_neg hij] at h
    exact Or.inr ⟨hij, h⟩

/-- Uniqueness of `x` survives overwriting a position with a non-`x` value. -/
theorem uniqAt_set_of_ne {ts : List TaskSt} {x y : TaskSt} {i : Nat}
    (h : uniqAt ts x) (hne : y ≠ x) : uniqAt (ts.set i y) x := by
  intro j k hj hk
  rcases getElem?_set_cases hj with ⟨_, hty⟩ | ⟨_, hj'⟩
  · exact (hne hty.symm).elim
  · rcases getElem?_set_cases hk with ⟨_, hty⟩ | ⟨_, hk'⟩
    · exact (hne hty.symm).elim
    · exact h j k hj' hk'

/-- Absence of `x` survives overwriting a position with a non-`x` value. -/
theorem absentT_set_of_ne {ts : List TaskSt} {x y : TaskSt} {i : Nat}
    (h : absentT ts x) (hne : y ≠ x) : absentT (ts.set i y) x := by
  intro j hj
  rcases getElem?_set_cases hj with ⟨_, hty⟩ | ⟨_, hj'⟩
  · exact hne hty.symm
  · exact h j hj'

/-- Writing `x` into a list that nowhere holds `x` makes the written
position the unique holder of `x`. -/
theorem uniqAt_set_self {ts : List TaskSt} {x : TaskSt} {i : Nat}
    (habs : absentT ts x) : uniqAt (ts.set i x) x := by
  intro j k hj hk
  rcases getElem?_set_cases hj with ⟨hij, _⟩ | ⟨_, hj'⟩
  · rcases getElem?_set_cases hk with ⟨hik, _⟩ | ⟨_, hk'⟩
    · rw [← hij, ← hik]
    · exact (habs k hk').elim
  · exact (habs j hj').elim

/-- The invariant is preserved by every step of the single-flight model. -/
theorem sfStep_inv {s s' : SFState} (hstep : SFStep s s') (hInv : SFInv s) :
    SFInv s' := by
  obtain ⟨hEmpty, hPend, hRes, hVal⟩ := hInv
  cases hstep with
  | beginFetch i hl hc hi =>
    obtain ⟨hc0, _, hall⟩ := hEmpty hc
    have habsF : absentT s.tasks TaskSt.fetching := by
      intro j hj
      exact TaskSt.noConfusion (hall j _ hj)
    have habsW : absentT s.tasks TaskSt.waiting := by
      intro j hj
      exact TaskSt.noConfusion (hall j _ hj)
    refine ⟨fun h => CacheSt.noConfusion h, fun _ => ?_,
      fun r h => CacheSt.noConfusion h, fun evs h => CacheSt.noConfusion h⟩
    refine ⟨by rw [hc0], ?_, ?_, ?_, ?_⟩
    · intro j t hj
      rcases getElem?_set_cases hj with ⟨_, ht⟩ | ⟨_, hj'⟩
      · exact Or.inr (Or.inl ht)
      · exact Or.inl (hall j t hj')
    · exact uniqAt_set_self habsF
    · exact uniqAt_set_of_ne (fun j k hj _ => (habsW j hj).elim)
        (fun hx => TaskSt.noConfusion hx)
    · intro _
      exact absentT_set_of_ne habsW (fun hx => TaskSt.noConfusion hx)
  | enterWait i hl hc hi =>
    obtain ⟨hc1, hall, huF, huW, hlw⟩ := hPend hc
    have habsW : absentT s.tasks TaskSt.waiting := hlw hl
    refine ⟨fun h => CacheSt.noConfusion h, fun _ => ?_,
      fun r h => CacheSt.noConfusion h, fun evs h => CacheSt.noConfusion h⟩
    refine ⟨hc1, ?_, ?_, ?_, ?_⟩
    · intro j t hj
      rcases getElem?_set_cases hj with ⟨_, ht⟩ | ⟨_, hj'⟩
      · exact Or.inr (Or.inr ht)
      · exact hall j t hj'
    · exact uniqAt_set_of_ne huF (fun hx => TaskSt.noConfusion hx)
    · exact uniqAt_set_self habsW
    · intro hfalse
      exact Bool.noConfusion hfalse
  | hitResolvedOk i evs hl hc hi =>
    obtain ⟨hc1, hall, huW, hlw⟩ := hRes _ hc
    have habsW := hlw hl
    refine ⟨fun h => CacheSt.noConfusion h, fun h => CacheSt.noConfusion h,
      fun r h => CacheSt.noConfusion h, fun evs' h => ?_⟩
    injection h with h'
    subst h'
    refine ⟨hc1, rfl, ?_⟩
    intro j t hj
    rcases getElem?_set_cases hj with ⟨_, ht⟩ | ⟨_, hj'⟩
    · exact Or.inr ht
    · rcases hall j t hj' with h1 | h1 | h1
      · exact Or.inl h1
      · exact (habsW j (h1 ▸ hj')).elim
      · exact Or.inr h1
  | hitResolvedErr i hl hc hi =>
    obtain ⟨hc1, hall, huW, hlw⟩ := hRes _ hc
    have habsW := hlw hl
    refine ⟨fun h => CacheSt.noConfusion h, fun h => CacheSt.noConfusion h,
      fun r h => ?_, fun evs h => CacheSt.noConfusion h⟩
    injection h with h'
    subst h'
    refine ⟨hc1, ?_, ?_, ?_⟩
    · intro j t hj
      rcases getElem?_set_cases hj with ⟨_, ht⟩ | ⟨_, hj'⟩
      · exact Or.inr (Or.inr ht)
      · exact hall j t hj'
    · exact uniqAt_set_of_ne huW (fun hx => TaskSt.noConfusion hx)
    · intro _
      exact absentT_set_of_ne habsW (fun hx => TaskSt.noConfusion hx)
  | hitValue i evs hl hc hi =>
    obtain ⟨hc1, hlk, hall⟩ := hVal _ hc
    refine ⟨fun h => CacheSt.noConfusion h, fun h => CacheSt.noConfusion h,
      fun r h => CacheSt.noConfusion h, fun evs' h => ?_⟩
    injection h with h'
    subst h'
    refine ⟨hc1, rfl, ?_⟩
    intro j t hj
    rcases getElem?_set_cases hj with ⟨_, ht⟩ | ⟨_, hj'⟩
    · exact Or.inr ht
    · exact hall j t hj'
  | completeFetch i r hi hc =>
    obtain ⟨hc1, hall, huF, huW, hlw⟩ := hPend hc
    refine ⟨fun h => CacheSt.noConfusion h, fun h => CacheSt.noConfusion h,
      fun r' h => ?_, fun evs h => CacheSt.noConfusion h⟩
    injection h with h'
    subst h'
    refine ⟨hc1, ?_, ?_, ?_⟩
    · intro j t hj
      rcases getElem?_set_cases hj with ⟨_, ht⟩ | ⟨hij, hj'⟩
      · exact Or.inr (Or.inr ht)
      · rcases hall j t hj' with h1 | h1 | h1
        · exact Or.inl h1
        · exact (hij (huF j i (h1 ▸ hj') hi).symm).elim
        · exact Or.inr (Or.inl h1)
    · exact uniqAt_set_of_ne huW (fun hx => TaskSt.noConfusion hx)
    · intro hl
      exact absentT_set_of_ne (hlw hl) (fun hx => TaskSt.noConfusion hx)
  | wakeOk i evs hl hi hc =>
    obtain ⟨hc1, hall, huW, hlw⟩ := hRes _ hc
    refine ⟨fun h => CacheSt.noConfusion h, fun h => CacheSt.noConfusion h,
      fun r h => CacheSt.noConfusion h, fun evs' h => ?_⟩
    injection h with h'
    subst h'
    refine ⟨hc1, rfl, ?_⟩
    intro j t hj
    rcases getElem?_set_cases hj with ⟨_, ht⟩ | ⟨hij, hj'⟩
    · exact Or.inr ht
    · rcases hall j t hj' with h1 | h1 | h1
      · exact Or.inl h1
      · exact (hij (huW j i (h1 ▸ hj') hi).symm).elim
      · exact Or.inr h1
  | wakeErr i hl hi hc =>
    obtain ⟨hc1, hall, huW, hlw⟩ := hRes _ hc
    refine ⟨fun h => CacheSt.noConfusion h, fun h => CacheSt.noConfusion h,
      fun r h => ?_, fun evs h => CacheSt.noConfusion h⟩
    injection h with h'
    subst h'
    refine ⟨hc1, ?_, ?_, ?_⟩
    · intro j t hj
      rcases getElem?_set_cases hj with ⟨_, ht⟩ | ⟨_, hj'⟩
      · exact Or.inr (Or.inr ht)
      · exact hall j t hj'
    · exact uniqAt_set_of_ne huW (fun hx => TaskSt.noConfusion hx)
    · intro _
      intro j hj
      rcases getElem?_set_cases hj with ⟨_, ht⟩ | ⟨hij, hj'⟩
      · exact TaskSt.noConfusion ht
      · exact hij (huW j i hj' hi).symm

/-- The initial state satisfies the invariant. -/
theorem sfInit_inv (n : Nat) : SFInv (sfInit n) := by
  refine ⟨fun _ => ⟨rfl, rfl, ?_⟩, fun h => CacheSt.noConfusion h,
    fun r h => CacheSt.noConfusion h, fun evs h => CacheSt.noConfusion h⟩
  intro j t hj
  simp only [sfInit] at hj
  rw [List.getElem?_replicate] at hj
  by_cases hlt : j < n
  · rw [if_pos hlt] at hj
    exact (Option.some.inj hj).symm
  · rw [if_neg hlt] at hj
    exact Option.noConfusion hj

/-- Every reachable state of the single-flight model satisfies the
invariant. -/
theorem sfReach_inv {n : Nat} {s : SFState}
    (h : Relation.ReflTransGen SFStep (sfInit n) s) : SFInv s := by
  induction h with
  | refl => exact sfInit_inv n
  | tail _ hstep ih => exact sfStep_inv hstep ih

/-- Steps do not change the number of tasks. -/
theorem sfStep_len {s s' : SFState} (h : SFStep s s') :
    s'.tasks.length = s.tasks.length := by
  cases h <;> simp [List.length_set]

/-- All reachable states keep the initial number of tasks. -/
theorem sfReach_len {n : Nat} {s : SFState}
    (h : Relation.ReflTransGen SFStep (sfInit n) s) : s.tasks.length = n := by
  induction h with
  | refl => simp [sfInit]
  | tail _ hstep ih => rw [sfStep_len hstep]; exact ih

/-- Unfolding the per-field iteration of `Filter.__call__`: the any-fold over
the three searched fields succeeds exactly when some non-`None` field passes
the per-field test. -/
theorem anyField_iff (p : String → Bool) (e : CalendarEvent) :
    ((searchFields e).any (fun o =>
      match o with
      | none => false
      | some s => p s) = true) ↔
      ∃ s ∈ nonNullFields e, p s = true := by
  obtain ⟨st, sp, sm, d, l⟩ := e
  unfold nonNullFields searchFields
  cases d <;> cases l <;> simp

/-- Unfolding the if-chain of `AttrFilter.match`: it succeeds exactly when
the field contains an include keyword, or contains no exclude keyword and
contains the filter string. -/
theorem matchStr_iff (f : AttrFilter) (s : String) :
    f.matchStr s = true ↔
      (∃ w ∈ f.include_work_types, pyIn w s = true) ∨
      ((∀ w ∈ f.exclude_types, pyIn w s = false) ∧
        pyIn f.filter_spec s = true) := by
  unfold AttrFilter.matchStr
  split_ifs with h1 h2
  · simp only [List.any_eq_true] at h1
    exact ⟨fun _ => Or.inl h1, fun _ => rfl⟩
  · simp only [List.any_eq_true] at h1 h2
    constructor
    · intro hfalse
      simp at hfalse
    · rintro (⟨w, hw, hpy⟩ | ⟨hexc, _⟩)
      · exact absurd ⟨w, hw, hpy⟩ h1
      · obtain ⟨w, hw, hpy⟩ := h2
        have hfw := hexc w hw
        rw [hpy] at hfw
        simp at hfw
  · simp only [List.any_eq_true] at h1 h2
    constructor
    · intro hp
      refine Or.inr ⟨?_, hp⟩
      intro w hw
      by_cases hb : pyIn w s = true
      · exact absurd ⟨w, hw, hb⟩ h2
      · exact Bool.eq_false_iff.mpr hb
    · rintro (⟨w, hw, hpy⟩ | ⟨_, hp⟩)
      · exact absurd ⟨w, hw, hpy⟩ h1
      · exact hp

/-- C2: `combine_events` equals the reference run-building algorithm stated
by the spec (sort by start; extend the open run when the next start is at
most the run end, taking the max of the ends and keeping the first summary;
otherwise close the run and restart; always emit the last open run), the
empty input yields the empty output, a single-event input yields one merged
event with that event's span and summary, and the spec's boundary example
merges 09:00-10:00 "A" with 10:00-11:00 "B" into 09:00-11:00 "A". -/
theorem c2_combine_events_matches_reference :
    (∀ events : List CalendarEvent, combine_events events = mergeRef events) ∧
    combine_events [] = [] ∧
    (∀ e : CalendarEvent,
      combine_events [e] =
        [{ start := e.start, stop := e.stop, summary := e.summary }]) ∧
    combine_events
      [{ start := 540, stop := 600, summary := "A" },
       { start := 600, stop := 660, summary := "B" }] =
      [{ start := 540, stop := 660, summary := "A" }] := by
  refine ⟨combine_events_eq_mergeRef, rfl, ?_, by decide⟩
  intro e
  rfl

/-- C3 counterexample: with include list `["Lunch"]`, exclude list
`["Holiday"]` and filter string `"Standup"`, an event whose summary is
`"Public Holiday"` (containing an exclude keyword) but whose description
contains `"Standup"` IS matched by the code (`filterCall`), while the
claimed event-level precedence (`attrEventLevel`) rejects it: exclude
keywords do not reject the event regardless of the filter string. -/
theorem c3_counterexample :
    filterCall ⟨"Standup", ["Lunch"], ["Holiday"]⟩
      { start := 0, stop := 1, summary := "Public Holiday",
        description := some "Standup planning" } = true ∧
    attrEventLevel ⟨"Standup", ["Lunch"], ["Holiday"]⟩
      { start := 0, stop := 1, summary := "Public Holiday",
        description := some "Standup planning" } = false := by decide

/-- C3 (amended): the include/exclude precedence is applied PER SEARCHED
FIELD, not per event: the event matches exactly when some non-`None`
searched field either contains an include keyword, or contains no exclude
keyword and contains the filter string.  Within a single field include takes
precedence over exclude, which takes precedence over the substring test, so
the spec's four single-field examples behave as claimed. -/
theorem c3_attr_filter_per_field :
    (∀ (f : AttrFilter) (e : CalendarEvent),
      filterCall f e = true ↔
        ∃ s ∈ nonNullFields e,
          (∃ w ∈ f.include_work_types, pyIn w s = true) ∨
          ((∀ w ∈ f.exclude_types, pyIn w s = false) ∧
            pyIn f.filter_spec s = true)) ∧
    filterCall ⟨"Standup", ["Lunch"], ["Holiday"]⟩
      { start := 0, stop := 1, summary := "Public Holiday" } = false ∧
    filterCall ⟨"Standup", ["Lunch"], ["Holiday"]⟩
      { start := 0, stop := 1, summary := "Lunch Break" } = true ∧
    filterCall ⟨"Standup", ["Lunch"], ["Holiday"]⟩
      { start := 0, stop := 1, summary := "Standup Meeting" } = true ∧
    filterCall ⟨"Standup", ["Lunch"], ["Holiday"]⟩
      { start := 0, stop := 1, summary := "Random" } = false := by
  refine ⟨?_, by decide, by decide, by decide, by decide⟩
  intro f e
  exact (anyField_iff (fun s => f.matchStr s) e).trans
    (exists_congr fun s => and_congr_right fun _ => matchStr_iff f s)

/-- C4 counterexample: with include list `["Lunch"]`, exclude list
`["Holiday"]` and pattern `"Standup"`, the code's regex filter
(`regexFilterCall`) rejects an event with summary `"Lunch Break"` although
the claimed semantics (`regexSpecSemantics`, include keywords force a match)
accepts it, and accepts an event with summary `"Standup on Public Holiday"`
although the claimed semantics (exclude keywords force rejection) rejects
it: `RegexFilter.match` never consults the keyword lists. -/
theorem c4_counterexample :
    (regexFilterCall ⟨"Standup", ["Lunch"], ["Holiday"]⟩
      { start := 0, stop := 1, summary := "Lunch Break" } = false ∧
     regexSpecSemantics ⟨"Standup", ["Lunch"], ["Holiday"]⟩
      { start := 0, stop := 1, summary := "Lunch Break" } = true) ∧
    (regexFilterCall ⟨"Standup", ["Lunch"], ["Holiday"]⟩
      { start := 0, stop := 1, summary := "Standup on Public Holiday" } = true ∧
     regexSpecSemantics ⟨"Standup", ["Lunch"], ["Holiday"]⟩
      { start := 0, stop := 1, summary := "Standup on Public Holiday" } = false) := by
  decide

/-- C4 (amended): the regex filter keeps the same field iteration as the
attribute filter but applies NO include/exclude precedence — its override of
`match` only tests the compiled pattern, so the event matches exactly when
the pattern matches within some non-`None` searched field, the result is
independent of the keyword lists, and the spec's anchoring example holds
(`^Team.*Sync$` matches "Team Weekly Sync" and rejects "Weekly Team Sync
Notes"). -/
theorem c4_regex_filter_ignores_keywords :
    (∀ (f : RegexFilter) (e : CalendarEvent),
      regexFilterCall f e = true ↔
        ∃ s ∈ nonNullFields e, reSearch f.filter_spec s = true) ∧
    (∀ (f : RegexFilter) (inc exc : List String) (e : CalendarEvent),
      regexFilterCall ⟨f.filter_spec, inc, exc⟩ e = regexFilterCall f e) ∧
    reSearch "^Team.*Sync$" "Team Weekly Sync" = true ∧
    reSearch "^Team.*Sync$" "Weekly Team Sync Notes" = false := by
  refine ⟨?_, fun f inc exc e => rfl, by decide, by decide⟩
  intro f e
  exact anyField_iff (fun s => reSearch f.filter_spec s) e

/-- C9 counterexample: `combine_events` sorts its input list in place
(`events.sort`, line 313), so calling it on a list that is not already
sorted by start time does NOT leave the input in the same order. -/
theorem c9_counterexample :
    (combine_events_proc
      [{ start := 600, stop := 660, summary := "B" },
       { start := 540, stop := 600, summary := "A" }]).1 ≠
      [{ start := 600, stop := 660, summary := "B" },
       { start := 540, stop := 600, summary := "A" }] := by decide

/-- C9 (amended): `combine_events` is deterministic (a pure function of the
input value in this model) and preserves the input's elements, but only up
to reordering: after a call the input list holds exactly the start-sorted
permutation of its previous contents, and the returned value is the merge of
that sorted list. -/
theorem c9_combine_events_sorts_in_place :
    ∀ events : List CalendarEvent,
      (combine_events_proc events).1.Perm events ∧
      (combine_events_proc events).1 = sortByStart events ∧
      (combine_events_proc events).2 = combine_events events := by
  intro events
  exact ⟨List.perm_insertionSort startLE events, rfl, rfl⟩

/-- C6 counterexample: a refresh whose fetch succeeds (even with a
non-empty event list) and one whose fetch fails with `CalendarUnavailable`
both leave the previous event as the observable state — the success path
dies with `AttributeError` at line 284 and the failure path propagates the
fetch exception, and neither assigns `self._event` — contradicting the claim
that after every refresh the state is the first merged event, "no event", or
"unavailable", and in particular never the previous event after a failed or
empty refresh. -/
theorem c6_counterexample :
    asyncUpdateRun (some { start := 540, stop := 600, summary := "A" })
      (fun _ => true)
      (FetchRes.ok [{ start := 700, stop := 760, summary := "B" }]) =
      (UpdateErr.attributeError,
        some { start := 540, stop := 600, summary := "A" }) ∧
    asyncUpdateRun (some { start := 540, stop := 600, summary := "A" })
      (fun _ => true) (FetchRes.ok []) =
      (UpdateErr.attributeError,
        some { start := 540, stop := 600, summary := "A" }) ∧
    asyncUpdateRun (some { start := 540, stop := 600, summary := "A" })
      (fun _ => true) FetchRes.err =
      (UpdateErr.calendarUnavailable,
        some { start := 540, stop := 600, summary := "A" }) :=
  ⟨rfl, rfl, rfl⟩

/-- C6 (amended): no refresh ever changes the observable state — every run
of `async_update` exits by exception before assigning `self._event`: on a
successful fetch `self.combine_events` at line 284 raises `AttributeError`
(because `combine_events` is a def nested inside the module-level
`async_update`, not a `FilterCalendar` method), and on fetch failure
`CalendarUnavailable` propagates.  The previous event is always retained;
the code has no transition to a first-merged-event, "no event", or
"unavailable" state. -/
theorem c6_refresh_never_updates :
    (∀ (prev : Option CalendarEvent) (flt : CalendarEvent → Bool)
        (evs : List CalendarEvent),
      asyncUpdateRun prev flt (FetchRes.ok evs) =
        (UpdateErr.attributeError, prev)) ∧
    (∀ (prev : Option CalendarEvent) (flt : CalendarEvent → Bool),
      asyncUpdateRun prev flt FetchRes.err =
        (UpdateErr.calendarUnavailable, prev)) :=
  ⟨fun _ _ _ => rfl, fun _ _ => rfl⟩

/-- C7: two `get_events` requests with the same calendar identifier whose
start datetimes agree on all components except second and microsecond, and
likewise for the end datetimes, are mapped to the same CacheKey by the
minute truncation at lines 124-128. -/
theorem c7_cache_key_minute_truncation
    (entity_id : String) (s1 e1 s2 e2 : PyDateTime)
    (hsy : s1.year = s2.year) (hsmo : s1.month = s2.month)
    (hsd : s1.day = s2.day) (hsh : s1.hour = s2.hour)
    (hsmi : s1.minute = s2.minute)
    (hey : e1.year = e2.year) (hemo : e1.month = e2.month)
    (hed : e1.day = e2.day) (heh : e1.hour = e2.hour)
    (hemi : e1.minute = e2.minute) :
    getEventsKey entity_id s1 e1 = getEventsKey entity_id s2 e2 := by
  unfold getEventsKey eventsHashkey replaceZeroSeconds
  cases s1
  cases s2
  cases e1
  cases e2
  simp_all

/-- C7 witness: the truncation theorem applied to two concrete request pairs
differing only in seconds and microseconds. -/
theorem c7_cache_key_minute_truncation_witness :
    getEventsKey "calendar.work" ⟨2026, 10, 12, 9, 30, 15, 250⟩
      ⟨2026, 10, 12, 10, 0, 59, 1⟩ =
    getEventsKey "calendar.work" ⟨2026, 10, 12, 9, 30, 44, 7⟩
      ⟨2026, 10, 12, 10, 0, 3, 0⟩ :=
  c7_cache_key_minute_truncation "calendar.work" _ _ _ _
    rfl rfl rfl rfl rfl rfl rfl rfl rfl rfl

/-- C8: `async_get_calendar` caches positive resolutions only — a cached
identifier is returned without consulting the registry; an identifier that
resolves to an available source is stored and returned (and is a cache hit
from then on); an identifier that is unknown or not yet available fails with
`CalendarUnavailable`, leaves the mapping unchanged, and the registry was
consulted (so the next miss consults it afresh). -/
theorem c8_get_calendar_positive_caching :
    (∀ (cals : List (String × Nat)) (registry : String → Option (Nat × Bool))
        (entity_id : String) (h : Nat),
      cals.lookup entity_id = some h →
        async_get_calendar cals registry entity_id =
          (Except.ok h, cals, false)) ∧
    (∀ (cals : List (String × Nat)) (registry : String → Option (Nat × Bool))
        (entity_id : String) (h : Nat),
      cals.lookup entity_id = none → registry entity_id = some (h, true) →
        async_get_calendar cals registry entity_id =
          (Except.ok h, (entity_id, h) :: cals, true) ∧
        ((entity_id, h) :: cals).lookup entity_id = some h) ∧
    (∀ (cals : List (String × Nat)) (registry : String → Option (Nat × Bool))
        (entity_id : String),
      cals.lookup entity_id = none →
      (registry entity_id = none ∨
        ∃ h : Nat, registry entity_id = some (h, false)) →
        async_get_calendar cals registry entity_id =
          (Except.error (), cals, true)) := by
  refine ⟨?_, ?_, ?_⟩
  · intro cals registry eid h hl
    unfold async_get_calendar
    rw [hl]
  · intro cals registry eid h hl hr
    unfold async_get_calendar
    rw [hl, hr]
    exact ⟨rfl, by simp [List.lookup]⟩
  · intro cals registry eid hl hr
    unfold async_get_calendar
    rw [hl]
    rcases hr with hr | ⟨h, hr⟩ <;> rw [hr]

/-- C8 witness: the registry-caching theorem applied at concrete inputs — a
fresh store resolves an available source, caches it, and the failure branch
leaves the store unchanged. -/
theorem c8_get_calendar_positive_caching_witness :
    (async_get_calendar [] (fun _ => some (7, true)) "calendar.work" =
      (Except.ok 7, [("calendar.work", 7)], true)) ∧
    (async_get_calendar [] (fun _ => some (7, false)) "calendar.work" =
      (Except.error (), [], true)) :=
  ⟨(c8_get_calendar_positive_caching.2.1 [] (fun _ => some (7, true))
      "calendar.work" 7 rfl rfl).1,
   c8_get_calendar_positive_caching.2.2 [] (fun _ => some (7, false))
      "calendar.work" rfl (Or.inr ⟨7, rfl⟩)⟩

/-- C5: after a fetch for a CacheKey fails with `NotAvailable` at time `t0`
(first conjunct: the failing call installs the resolved-failure future),
every subsequent call for the same key at any time before `t0 + TTL`
returns the same cached failure with no upstream fetch and leaves the
entry unchanged (second conjunct, over arbitrary call sequences), and a call
at or after `t0 + TTL` performs a fresh upstream fetch (third conjunct). -/
theorem c5_cached_failure_until_ttl :
    (∀ t0 : Nat, getEventsTimed ⟨none⟩ t0 FetchRes.err =
      (FetchRes.err, ⟨some (CacheEnt.futErr, t0)⟩, true)) ∧
    (∀ (t0 : Nat) (calls : List (Nat × FetchRes)),
      (∀ c ∈ calls, c.1 < t0 + MIN_TIME_BETWEEN_UPDATES) →
      runCalls ⟨some (CacheEnt.futErr, t0)⟩ calls =
        (calls.map (fun _ => (FetchRes.err, false)),
          ⟨some (CacheEnt.futErr, t0)⟩)) ∧
    (∀ (t0 t : Nat) (f : FetchRes), t0 + MIN_TIME_BETWEEN_UPDATES ≤ t →
      getEventsTimed ⟨some (CacheEnt.futErr, t0)⟩ t f = installFetch t f) := by
  refine ⟨fun t0 => rfl, ?_, ?_⟩
  · intro t0 calls
    induction calls with
    | nil => intro _; rfl
    | cons c cs ih =>
      intro hall
      obtain ⟨t, f⟩ := c
      have ht : t < t0 + MIN_TIME_BETWEEN_UPDATES :=
        hall (t, f) (List.mem_cons_self _ _)
      have hstep : getEventsTimed ⟨some (CacheEnt.futErr, t0)⟩ t f =
          (FetchRes.err, ⟨some (CacheEnt.futErr, t0)⟩, false) := by
        simp [getEventsTimed, ht]
      have hrest := ih (fun c hc => hall c (List.mem_cons_of_mem _ hc))
      simp only [runCalls, hstep, hrest, List.map]
  · intro t0 t f hge
    simp [getEventsTimed, Nat.not_lt.mpr hge]

/-- C5 witness: the cached-failure theorem applied to a concrete trace — a
failure cached at time 0, two calls inside the 15-minute window both observe
the failure without fetching, and a call at time 15 fetches afresh. -/
theorem c5_cached_failure_until_ttl_witness :
    runCalls ⟨some (CacheEnt.futErr, 0)⟩
      [(5, FetchRes.ok []), (14, FetchRes.err)] =
      ([(FetchRes.err, false), (FetchRes.err, false)],
        ⟨some (CacheEnt.futErr, 0)⟩) ∧
    getEventsTimed ⟨some (CacheEnt.futErr, 0)⟩ 15 (FetchRes.ok []) =
      installFetch 15 (FetchRes.ok []) := by
  constructor
  · have h := c5_cached_failure_until_ttl.2.1 0
      [(5, FetchRes.ok []), (14, FetchRes.err)] (by decide)
    simpa using h
  · exact c5_cached_failure_until_ttl.2.2 0 15 (FetchRes.ok []) (by decide)

/-- C1: in the single-flight interleaving model, for any number `n > 0` of
concurrent `get_events` callers sharing one CacheKey, starting from a state
with no cached entry, every execution in which all callers have finished
performed exactly one upstream fetch, and all callers received the same
result (the same event list, or the same failure). -/
theorem c1_single_flight (n : Nat) (s : SFState) (hn : 0 < n)
    (hreach : Relation.ReflTransGen SFStep (sfInit n) s)
    (hdone : ∀ (i : Nat) (t : TaskSt), s.tasks[i]? = some t →
      ∃ r : FetchRes, t = TaskSt.done r) :
    s.fetchCount = 1 ∧ ∃ r : FetchRes, ∀ (i : Nat) (t : TaskSt),
      s.tasks[i]? = some t → t = TaskSt.done r := by
  obtain ⟨hEmpty, hPend, hRes, hVal⟩ := sfReach_inv hreach
  have hlen := sfReach_len hreach
  have h0lt : 0 < s.tasks.length := by rw [hlen]; exact hn
  have h0 : s.tasks[0]? = some s.tasks[0] :=
    List.getElem?_eq_some.mpr ⟨h0lt, rfl⟩
  obtain ⟨r0, hr0⟩ := hdone 0 _ h0
  cases hcache : s.cache with
  | empty =>
    obtain ⟨_, _, hall⟩ := hEmpty hcache
    have hstart := hall 0 _ h0
    rw [hr0] at hstart
    exact TaskSt.noConfusion hstart
  | futPending =>
    obtain ⟨_, hall, _, _, _⟩ := hPend hcache
    rcases hall 0 _ h0 with h1 | h1 | h1 <;>
      (rw [hr0] at h1; exact TaskSt.noConfusion h1)
  | futResolved r =>
    obtain ⟨hc1, hall, _, _⟩ := hRes r hcache
    refine ⟨hc1, r, ?_⟩
    intro i t ht
    rcases hall i t ht with h1 | h1 | h1
    · obtain ⟨r', hr'⟩ := hdone i t ht
      rw [hr'] at h1
      exact TaskSt.noConfusion h1
    · obtain ⟨r', hr'⟩ := hdone i t ht
      rw [hr'] at h1
      exact TaskSt.noConfusion h1
    · exact h1
  | value evs =>
    obtain ⟨hc1, _, hall⟩ := hVal evs hcache
    refine ⟨hc1, FetchRes.ok evs, ?_⟩
    intro i t ht
    rcases hall i t ht with h1 | h1
    · obtain ⟨r', hr'⟩ := hdone i t ht
      rw [hr'] at h1
      exact TaskSt.noConfusion h1
    · exact h1

/-- C1 witness: the single-flight theorem applied to a concrete completed
run of one caller — begin the fetch, then complete it with the empty list. -/
theorem c1_single_flight_witness :
    sfW2.fetchCount = 1 ∧ ∃ r : FetchRes, ∀ (i : Nat) (t : TaskSt),
      sfW2.tasks[i]? = some t → t = TaskSt.done r :=
  c1_single_flight 1 sfW2 (by decide)
    (Relation.ReflTransGen.tail
      (Relation.ReflTransGen.single
        (SFStep.beginFetch (sfInit 1) 0 rfl rfl rfl))
      (SFStep.completeFetch _ 0 (FetchRes.ok []) rfl rfl))
    (fun i t h => by
      match i with
      | 0 => exact ⟨FetchRes.ok [], (Option.some.inj h).symm⟩
      | Nat.succ m => exact Option.noConfusion h)

/-- C10: the view constructor normalises the tracking identifier exactly as
claimed — `"calendar."` is prepended when the identifier does not start with
`"calendar"`, identifiers already starting with `"calendar"` (including
`"calendarX"` with no dot) are stored unchanged. -/
theorem c10_tracking_id_normalization :
    (∀ name s : String, pyStartsWith s "calendar" = false →
      (filterCalendarInit name s).tracking_calendar_id = "calendar." ++ s) ∧
    (∀ name s : String, pyStartsWith s "calendar" = true →
      (filterCalendarInit name s).tracking_calendar_id = s) ∧
    (filterCalendarInit "n" "calendarX").tracking_calendar_id = "calendarX" ∧
    (filterCalendarInit "n" "family").tracking_calendar_id =
      "calendar.family" := by
  refine ⟨?_, ?_, by decide, by decide⟩
  · intro name s h
    simp [filterCalendarInit, normalizeTrackingId, h]
  · intro name s h
    simp [filterCalendarInit, normalizeTrackingId, h]

/-- C10 witness: the normalisation theorem applied at concrete identifiers. -/
theorem c10_tracking_id_normalization_witness :
    (filterCalendarInit "work" "family").tracking_calendar_id =
      "calendar." ++ "family" ∧
    (filterCalendarInit "work" "calendar.family").tracking_calendar_id =
      "calendar.family" :=
  ⟨c10_tracking_id_normalization.1 "work" "family" (by decide),
   c10_tracking_id_normalization.2.1 "work" "calendar.family" (by decide)⟩
